import Mathlib

/-
Shallow embedding of the core of the PennyLane repository under verification:

* pennylane/devices/qubit/simulate.py
    (mid-circuit-measurement tree simulator, sample pruning, measurement
    combination),
* pennylane/transforms/dynamic_one_shot.py
    (one-shot mid-circuit-measurement transform), and
* pennylane/decomposition/decomposition_rule.py
    (decomposition rule registry and resource computation).

Python dictionaries are modelled as insertion-ordered association lists,
numpy arrays as Lean lists, machine floats as rationals, and fallible code
returns `Except`.  Each definition carries a comment naming the source
function it embeds.
-/

/-! Measurement values

A `SimVal` models the value a single measurement produces in
`simulate.py`: a numpy scalar, a numpy 1-d array, NaN placeholders of
either shape (used by `measurement_with_no_shots`), or a counts dictionary
(for `CountsMP`). -/

inductive SimVal where
  | num (q : ℚ)
  | arr (xs : List ℚ)
  | nanScalar
  | nanArr (n : Nat)
  | countsV (entries : List (Int × Nat))
deriving DecidableEq

/-- Multiplication `count * value` of an integer shot count with a branch
value (`v[0] * v[1]` in `combine_measurements_core`).  NaN values stay NaN
under scaling; a counts dictionary never reaches this operation. -/
def SimVal.scale (c : Nat) : SimVal → SimVal
  | .num q => .num (c * q)
  | .arr xs => .arr (xs.map (fun x => (c : ℚ) * x))
  | .nanScalar => .nanScalar
  | .nanArr n => .nanArr n
  | .countsV e => .countsV e

/-- numpy-style addition `cum_value += ...` with scalar/array broadcasting.
The combination cores only ever add numbers to numbers and equal-length
arrays together (starting from the integer 0); shape mismatches, which
raise in numpy, and the remaining NaN cases are collapsed to `nanScalar`
and are unreachable from the theorems below. -/
def SimVal.add : SimVal → SimVal → SimVal
  | .num a, .num b => .num (a + b)
  | .num a, .arr ys => .arr (ys.map (fun y => a + y))
  | .arr xs, .num b => .arr (xs.map (fun x => x + b))
  | .arr xs, .arr ys =>
      if xs.length = ys.length then .arr (List.zipWith (fun x y => x + y) xs ys)
      else .nanScalar
  | _, _ => .nanScalar

/-- Division of an accumulated value by the integer `total_counts`
(`cum_value / total_counts` in `combine_measurements_core`). -/
def SimVal.divNat (v : SimVal) (c : Nat) : SimVal :=
  match v with
  | .num q => .num (q / (c : ℚ))
  | .arr xs => .arr (xs.map (fun x => x / (c : ℚ)))
  | .nanScalar => .nanScalar
  | .nanArr n => .nanArr n
  | .countsV e => .countsV e

/-- Model of `qml.math.squeeze` on the shapes arising here: a length-one vector
becomes a scalar, everything else is unchanged. -/
def SimVal.squeeze : SimVal → SimVal
  | .arr [x] => .num x
  | .nanArr 1 => .nanScalar
  | v => v

/-- Population variance of a list of rationals, `np.var`. -/
def listVariance (xs : List ℚ) : ℚ :=
  let μ : ℚ := xs.sum / (xs.length : ℚ)
  (xs.map (fun x => (x - μ) * (x - μ))).sum / (xs.length : ℚ)

/-- Model of `qml.math.var` applied to a combined value (the post-treatment of
`VarianceMP` at the end of `combine_measurements`): the variance of a
single scalar is `0`, the variance of NaN input is NaN. -/
def SimVal.variance : SimVal → SimVal
  | .num _ => .num 0
  | .arr xs => .num (listVariance xs)
  | .nanScalar => .nanScalar
  | .nanArr _ => .nanScalar
  | .countsV e => .countsV e

/-! Measurement specifications -/

/-- The measurement kinds relevant to the embedded code paths.  `state`
stands for any measurement type outside the five kinds supported by the
native mid-circuit measurement mode (e.g. `StateMP`). -/
inductive MKind where
  | counts
  | expectation
  | probability
  | sample
  | variance
  | state
deriving DecidableEq

/-- Printable measurement-class name, `type(m).__name__`. -/
def MKind.pyName : MKind → String
  | .counts => "CountsMP"
  | .expectation => "ExpectationMP"
  | .probability => "ProbabilityMP"
  | .sample => "SampleMP"
  | .variance => "VarianceMP"
  | .state => "StateMP"

/-- A terminal measurement of a circuit: its kind, whether it measures a
mid-circuit measurement value (`m.mv` truthy), and the length of its
`eigvals()` array (used by the NaN placeholder for probabilities). -/
structure MeasSpec where
  kind : MKind
  mv : Bool
  eigLen : Nat
deriving DecidableEq

/-- Model of `measurement_with_no_shots` (simulate.py): a NaN array of the eigvals
shape for a probability measurement, a NaN scalar otherwise. -/
def measurement_with_no_shots (m : MeasSpec) : SimVal :=
  if m.kind = .probability then .nanArr m.eigLen else .nanScalar

/-! Measurement combination (`combine_measurements_core` and
`combine_measurements` in simulate.py)

A branch dictionary (`measures`) maps a branch outcome to a pair
`(shot_count, value)`; Python's insertion-ordered dict becomes an
association list `List (Int × Nat × SimVal)`. -/

/-- Python `Counter.update({k: v})`: add `v` onto the existing count of
`k`, inserting `k` at the end if absent. -/
def counterAdd (acc : List (Int × Nat)) (k : Int) (v : Nat) : List (Int × Nat) :=
  if acc.any (fun kv => kv.1 == k) then
    acc.map (fun kv => if kv.1 == k then (kv.1, kv.2 + v) else kv)
  else acc ++ [(k, v)]

/-- Model of `combine_measurements_core` registered for `CountsMP`: merge the
per-branch counts dictionaries additively with a `Counter`.  A non-counts
branch value never occurs for a counts measurement and is skipped. -/
def combine_core_counts (measures : List (Int × Nat × SimVal)) : SimVal :=
  .countsV (measures.foldl
    (fun acc v =>
      match v.2.2 with
      | .countsV d => d.foldl (fun a kv => counterAdd a kv.1 kv.2) acc
      | _ => acc)
    [])

/-- Model of `combine_measurements_core` registered for `ExpectationMP`:
`cum_value += v[0] * v[1]`, `total_counts += v[0]` over
`measures.values()`, returning `cum_value / total_counts`. -/
def combine_core_expectation (measures : List (Int × Nat × SimVal)) : SimVal :=
  let acc := measures.foldl
    (fun acc v => (SimVal.add acc.1 (SimVal.scale v.2.1 v.2.2), acc.2 + v.2.1))
    (SimVal.num 0, 0)
  SimVal.divNat acc.1 acc.2

/-- Model of `combine_measurements_core` registered for `ProbabilityMP`: the exact
same weighted-average loop as the expectation case. -/
def combine_core_probability (measures : List (Int × Nat × SimVal)) : SimVal :=
  let acc := measures.foldl
    (fun acc v => (SimVal.add acc.1 (SimVal.scale v.2.1 v.2.2), acc.2 + v.2.1))
    (SimVal.num 0, 0)
  SimVal.divNat acc.1 acc.2

/-- Model of `np.concatenate` of the per-branch sample arrays.  Branch sample
values are 1-d arrays; anything else would raise in numpy and is collapsed
to `nanScalar`. -/
def concatArrays (vs : List SimVal) : SimVal :=
  if vs.all (fun v => match v with | .arr _ => true | _ => false) then
    .arr (vs.foldr (fun v acc => match v with | .arr xs => xs ++ acc | _ => acc) [])
  else .nanScalar

/-- Model of `combine_measurements_core` registered for `SampleMP`: concatenate the
raw per-branch samples and squeeze. -/
def combine_core_sample (measures : List (Int × Nat × SimVal)) : SimVal :=
  SimVal.squeeze (concatArrays (measures.map (fun v => v.2.2)))

/-- Model of `combine_measurements_core` registered for `VarianceMP`: identical to
the sample case (variance is computed later over the pooled samples). -/
def combine_core_variance (measures : List (Int × Nat × SimVal)) : SimVal :=
  SimVal.squeeze (concatArrays (measures.map (fun v => v.2.2)))

/-- Model of `combine_measurements_core` dispatch (`functools.singledispatch`): the
default implementation raises a TypeError for unsupported measurement
types. -/
def combine_measurements_core (m : MeasSpec) (measures : List (Int × Nat × SimVal)) :
    Except String SimVal :=
  match m.kind with
  | .counts => .ok (combine_core_counts measures)
  | .expectation => .ok (combine_core_expectation measures)
  | .probability => .ok (combine_core_probability measures)
  | .sample => .ok (combine_core_sample measures)
  | .variance => .ok (combine_core_variance measures)
  | .state =>
      .error ("Native mid-circuit measurement mode does not support " ++ MKind.pyName .state)

/-- A per-branch result in the `measurements` dictionary of
`combine_measurements`: a single value for single-measurement circuits, a
tuple of values for multi-measurement circuits. -/
inductive BranchRes where
  | single (v : SimVal)
  | multi (vs : List SimVal)
deriving DecidableEq

/-- Projection used when a dictionary value is passed to a combination
core; a `multi` value never reaches a core. -/
def BranchRes.toVal : BranchRes → SimVal
  | .single v => v
  | .multi _ => .nanScalar

/-- The dict-of-lists to list-of-dicts conversion at the top of
`combine_measurements`.  The source comprehension
`[{keys[0]: m0, keys[1]: m1} for m0, m1 in zip(*ds)]` unpacks exactly two
branches and requires every branch value to be a sequence; any other shape
raises. -/
def convert_to_list_of_dicts (ms : List (Int × Nat × BranchRes)) :
    Except String (List (List (Int × Nat × SimVal))) :=
  match ms with
  | [(k0, c0, .multi vs0), (k1, c1, .multi vs1)] =>
      .ok ((List.zip vs0 vs1).map (fun p => [(k0, c0, p.1), (k1, c1, p.2)]))
  | _ => .error "cannot unpack branch results"

/-- Accumulated mid-circuit measurement samples: an insertion-ordered
dictionary from the identity of a `MidMeasureMP` (modelled as a `Nat` id)
to the per-shot outcome array. -/
abbrev SampleDict := List (Nat × List Int)

/-- The per-measurement loop of `combine_measurements`: walks the
circuit's terminal measurements, consuming `new_measurements` like the
source's `pop(0)`, and produces the list of combined values.
`gather` abstracts the imported `gather_mcm` helper used for measurements
of mid-circuit measurement values. -/
def combineLoop (gather : MeasSpec → SampleDict → SimVal) (mcm_samples : SampleDict)
    (empty_mcm_samples : Bool) :
    List MeasSpec → List (List (Int × Nat × SimVal)) → Except String (List SimVal)
  | [], _ => .ok []
  | m :: rest, nms => do
    let step : Except String (SimVal × List (List (Int × Nat × SimVal))) :=
      if m.mv && empty_mcm_samples then .ok (measurement_with_no_shots m, nms)
      else if m.mv then .ok (gather m mcm_samples, nms)
      else
        match nms with
        | [] => .ok (measurement_with_no_shots m, [])
        | d :: nrest =>
          if d.isEmpty then .ok (measurement_with_no_shots m, nrest)
          else (combine_measurements_core m d).map (fun v => (v, nrest))
    let p ← step
    let comb := if m.kind = .sample then p.1.squeeze else p.1
    let tail ← combineLoop gather mcm_samples empty_mcm_samples rest p.2
    pure (comb :: tail)

/-- The special treatment of `VarianceMP` at the end of
`combine_measurements`: variances not tied to a mid-circuit measurement
value are computed post-hoc over the pooled samples. -/
def varPost (m : MeasSpec) (v : SimVal) : SimVal :=
  if !m.mv && m.kind == .variance then v.variance else v

/-- The final `return final_measurements[0] if len(final_measurements) == 1
else tuple(final_measurements)`. -/
inductive ResWrap where
  | single (v : SimVal)
  | tuple (vs : List SimVal)
deriving DecidableEq

def wrapResult (vs : List SimVal) : ResWrap :=
  match vs with
  | [v] => .single v
  | _ => .tuple vs

/-- Model of `combine_measurements` (simulate.py): combines the dictionary of
per-branch `(shot_count, result)` pairs into the user-visible result.
Mirrors the source: the dict-of-lists conversion, the
`next(iter(mcm_samples.values()))` emptiness probe (a `StopIteration` on
an empty dict), the inconsistent-shape check, the per-measurement loop,
the variance post-treatment, and the single/tuple wrapping. -/
def combine_measurements (gather : MeasSpec → SampleDict → SimVal)
    (circuitMeas : List MeasSpec) (measurements : List (Int × Nat × BranchRes))
    (mcm_samples : SampleDict) : Except String ResWrap := do
  let newMeasurements ←
    match measurements with
    | (_, _, .multi _) :: _ => convert_to_list_of_dicts measurements
    | _ => pure [measurements.map (fun v => (v.1, v.2.1, v.2.2.toVal))]
  let empty_mcm_samples ←
    match mcm_samples with
    | [] => Except.error "StopIteration"
    | kv :: _ => pure (kv.2.length == 0)
  if empty_mcm_samples && mcm_samples.any (fun kv => kv.2.length != 0) then
    Except.error "mcm_samples have inconsistent shapes."
  else do
    let vals ← combineLoop gather mcm_samples empty_mcm_samples circuitMeas newMeasurements
    let finals := (circuitMeas.zip vals).map (fun p => varPost p.1 p.2)
    pure (wrapResult finals)

/-! Mid-circuit measurement sample pruning (simulate.py)

`mcm_active` maps a mid-circuit measurement (by identity, modelled as a
`Nat` id) to the branch value taken on the current root-to-node path;
`mcm_samples` maps each measurement to its per-shot outcome array. -/

abbrev ActiveDict := List (Nat × Int)

/-- Dictionary lookup `mcm_samples[k]` (the callers guarantee the key is
present; a missing key, a `KeyError` in Python, yields `[]`). -/
def getSamples (s : SampleDict) (k : Nat) : List Int :=
  ((s.find? (fun kv => kv.1 == k)).map (fun kv => kv.2)).getD []

/-- The prefix of `mcm_active` before `op`: the source loop
`for k, v in mcm_active.items(): if k == op: break` visits exactly these
entries. -/
def ancestorsBefore (op : Nat) (active : ActiveDict) : ActiveDict :=
  active.takeWhile (fun kv => kv.1 ≠ op)

/-- The boolean mask of `prune_mcm_samples`:
`mask = mcm_samples[op] == branch` followed by
`mask = np.logical_and(mask, mcm_samples[k] == v)` for every ancestor
entry of `mcm_active` before `op`. -/
def pruneMask (op : Nat) (branch : Int) (active : ActiveDict) (s : SampleDict) :
    List Bool :=
  (ancestorsBefore op active).foldl
    (fun m kv => List.zipWith (fun a b => a && b) m
      ((getSamples s kv.1).map (fun x => x == kv.2)))
    ((getSamples s op).map (fun x => x == branch))

/-- numpy boolean-mask indexing `arr[keep]` (the arrays always have the
same length as the mask). -/
def maskKeep (arr : List Int) (keep : List Bool) : List Int :=
  (arr.zip keep).filterMap (fun p => if p.2 then some p.1 else none)

/-- Model of `prune_mcm_samples` (simulate.py): drop, from every entry of
`mcm_samples`, the positions where the mask holds
(`mcm_samples[k] = mcm_samples[k][np.logical_not(mask)]`). -/
def prune_mcm_samples (op : Nat) (branch : Int) (active : ActiveDict)
    (s : SampleDict) : SampleDict :=
  let mask := pruneMask op branch active s
  s.map (fun kv => (kv.1, maskKeep kv.2 (mask.map (fun b => !b))))

/-- Whether the recorded history at shot index `i` matches the branch
`branch` of measurement `op`: the sample of `op` equals `branch` and the
sample of every ancestor measurement before `op` in `mcm_active` equals
the ancestor's recorded branch value.  This is the claim-side description
of the rows `prune_mcm_samples` must remove. -/
def historyMatchB (op : Nat) (branch : Int) (active : ActiveDict) (s : SampleDict)
    (i : Nat) : Bool :=
  ((getSamples s op).getD i 0 == branch) &&
    (ancestorsBefore op active).all (fun kv => (getSamples s kv.1).getD i 0 == kv.2)

/-- Model of `mcm_active[op] = branch`: insertion-ordered dictionary update. -/
def dictInsert (d : ActiveDict) (k : Nat) (v : Int) : ActiveDict :=
  if d.any (fun kv => kv.1 == k) then
    d.map (fun kv => if kv.1 == k then (kv.1, v) else kv)
  else d ++ [(k, v)]

/-- The branch loop of `simulate_tree_mcm` (the `for branch in
counts.keys()` loop): a branch conflicting with an explicit postselect
value is pruned and skipped; otherwise `mcm_active[op]` is set and the
branch is simulated recursively.  The recursive call
`branch_measurement`, whose only effect relevant here is on
`mcm_samples`, is abstracted by `recurse`.  Returns the list of branch
values actually recursed into together with the final `mcm_samples`. -/
def mcmBranchLoop (recurse : Int → SampleDict → SampleDict) (op : Nat)
    (postselect : Option Int) (active : ActiveDict) :
    List Int → SampleDict → List Int × SampleDict
  | [], s => ([], s)
  | br :: rest, s =>
    match postselect with
    | some b =>
      if br ≠ b then
        mcmBranchLoop recurse op postselect active rest (prune_mcm_samples op br active s)
      else
        let s' := recurse br s
        let r := mcmBranchLoop recurse op postselect (dictInsert active op br) rest s'
        (br :: r.1, r.2)
    | none =>
      let s' := recurse br s
      let r := mcmBranchLoop recurse op postselect (dictInsert active op br) rest s'
      (br :: r.1, r.2)

/-! Branch collapse (`branch_state` inside `simulate_tree_mcm`)

A statevector over `n` wires is a dense rank-`n` tensor with one axis of
size 2 per wire; it is modelled flat as a `List ℚ` of length `2 ^ n`
(rational amplitudes stand in for the complex machine floats), indexed so
that wire `w` corresponds to bit `n - 1 - w` of the flat index, matching
`state[tuple(slices)]` with `slices[axis]` on axis `w`. -/

/-- The component of flat index `i` along the axis of wire `w`. -/
def bitAtMSB (n w i : Nat) : Nat := i / 2 ^ (n - 1 - w) % 2

/-- Flip the bit of wire `w` in flat index `i` (the PauliX permutation of
indices). -/
def flipIdx (n w i : Nat) : Nat := i ^^^ 2 ^ (n - 1 - w)

/-- Python `int(not branch)`. -/
def notInt (b : Int) : Int := if b = 0 then 1 else 0

/-- Model of `state[tuple(slices)] = 0.0` with `slices[axis] = int(not branch)`:
zero every amplitude whose component on the measured wire is
`int(not branch)`, i.e. keep the subspace consistent with the outcome. -/
def projectBranch (n w : Nat) (branch : Int) (state : List ℚ) : List ℚ :=
  state.mapIdx (fun i a => if (bitAtMSB n w i : Int) = notInt branch then 0 else a)

/-- Squared Euclidean norm of the flattened state;
`np.linalg.norm(state)` is its square root. -/
def normSq (v : List ℚ) : ℚ := (v.map (fun a => a * a)).sum

/-- Modelled from the spec: `apply_operation(qml.PauliX(wire), state)` is
an external primitive ("state representation & operator application" is
consumed as-is); per the spec a reset applies "a bit-flip to return the
wire to |0>", i.e. the permutation of amplitudes exchanging the two values
of the measured wire's axis. -/
def pauliXPerm (n w : Nat) (v : List ℚ) : List ℚ :=
  (List.range v.length).map (fun i => v.getD (flipIdx n w i) 0)

/-- A state together with the pending normalization: `vec` holds exact
rational amplitudes and the represented (real) state is
`vec / Real.sqrt scaleSq`.  `state = state / state_norm` with the
irrational `state_norm = sqrt(normSq)` is recorded exactly this way. -/
structure ScaledState where
  vec : List ℚ
  scaleSq : ℚ
deriving DecidableEq

/-- Model of `branch_state` (inside `simulate_tree_mcm`): project the base state
onto the branch outcome, guard against a vanished state
(`state_norm < 1.0e-15`, phrased on squared norms since
`sqrt x < c ↔ x < c²` for `c > 0`; the float literal is modelled as the
rational `10⁻¹⁵`), renormalize, and apply a PauliX flip when the
measurement resets the wire and the outcome branch is 1. -/
def branch_state (reset : Bool) (n w : Nat) (branch : Int) (state : List ℚ) :
    Except String ScaledState :=
  let st := projectBranch n w branch state
  let s := normSq st
  if s < 1 / 10 ^ 30 then .error "Cannot normalize state"
  else if reset && branch == 1 then .ok ⟨pauliXPerm n w st, s⟩
  else .ok ⟨st, s⟩

/-! Circuits and the simulation entry point (simulate.py,
dynamic_one_shot.py)

A `QuantumScript` is an ordered operator sequence, terminal measurements
and a shot specification.  A shot specification is modelled from the
spec's data model as either `none` (analytic) or a finite shot vector of
positive entries (a plain integer is the one-entry vector); its Python
truthiness (`if circuit.shots`) means "finite". -/

inductive QOp where
  | gate (name : String)
  | midMeasure (id : Nat) (postselect : Option Int) (reset : Bool)
deriving DecidableEq

structure Tape where
  operations : List QOp
  measurements : List MeasSpec
  shots : Option (List Nat)
  batchSize : Option Nat
deriving DecidableEq

/-- Model of `is_mcm` (dynamic_one_shot.py): whether an operation is a mid-circuit
measurement (the Catalyst `MidCircuitMeasure` string check is subsumed by
the single mid-measure constructor of the model). -/
def is_mcm : QOp → Bool
  | .midMeasure _ _ _ => true
  | _ => false

/-- Model of `has_mid_circuit_measurements` (simulate.py): True iff the circuit's
operations contain a `MidMeasureMP`. -/
def has_mid_circuit_measurements (t : Tape) : Bool :=
  t.operations.any is_mcm

/-- Modelled from the spec: `Shots.__bool__` (pennylane/measurements/
shots.py, not under src/) — a shot specification is truthy exactly when it
is finite (analytic `None` is falsy; constructible shot counts are
positive). -/
def shots_truthy : Option (List Nat) → Bool
  | none => false
  | some _ => true

/-- Model of `tape.shots.total_shots` for a finite shot specification. -/
def tape_total_shots (t : Tape) : Nat := (t.shots.getD []).sum

/-- Model of `simulate` (simulate.py): dispatches to `simulate_tree_mcm` exactly
when `circuit.shots` is truthy and the circuit has a mid-circuit
measurement, and otherwise to the plain
`get_final_state` / `measure_final_state` pipeline.  The two pipelines are
abstracted as result-producing functions. -/
def simulate {R : Type} (treeFn plainFn : Tape → R) (t : Tape) : R :=
  if shots_truthy t.shots && has_mid_circuit_measurements t then treeFn t
  else plainFn t

/-! The `dynamic_one_shot` transform (dynamic_one_shot.py) -/

/-- The errors `dynamic_one_shot` can raise before producing tapes. -/
inductive DynErr where
  | typeErr (msg : String)
  | qfErr (msg : String)
  | valErr (msg : String)
deriving DecidableEq

/-- The two postprocessing functions `dynamic_one_shot` can return:
`null_postprocessing` for circuits without mid-circuit measurements, and
the one-shot `processing_fn` closure otherwise. -/
inductive PostKind where
  | nullPost
  | oneShotPost
deriving DecidableEq

/-- Model of `null_postprocessing` (dynamic_one_shot.py): `return results[0]`
(indexing an empty batch would raise, hence `Option`). -/
def null_postprocessing {α : Type} (results : List α) : Option α :=
  results[0]?

/-- The measurement kinds accepted by the native mid-circuit measurement
mode: `isinstance(m, (CountsMP, ExpectationMP, ProbabilityMP, SampleMP,
VarianceMP))`. -/
def supported_mcm_meas (m : MeasSpec) : Bool :=
  match m.kind with
  | .counts | .expectation | .probability | .sample | .variance => true
  | .state => false

/-- Model of `init_auxiliary_tape` (dynamic_one_shot.py): keep the measurements
without a mid-circuit measurement value (turning `VarianceMP` into
`SampleMP`), append one sample measurement per mid-circuit measurement
(its eigenvalue set is the outcome set, two values), and set the shots to
`[1] * circuit.shots.total_shots`. -/
def init_auxiliary_tape (t : Tape) : Tape :=
  let kept := (t.measurements.filter (fun m => !m.mv)).map
    (fun m => if m.kind = .variance then { m with kind := .sample } else m)
  let mcmSamples := t.operations.filterMap
    (fun op => if is_mcm op then some (⟨.sample, true, 2⟩ : MeasSpec) else none)
  { operations := t.operations
    measurements := kept ++ mcmSamples
    shots := some (List.replicate (tape_total_shots t) 1)
    batchSize := t.batchSize }

/-- Modelled from the spec: `qml.transforms.broadcast_expand` (not under
src/) splits a broadcasted tape into one non-broadcasted tape per batch
element. -/
def broadcast_expand (t : Tape) : List Tape :=
  List.replicate (t.batchSize.getD 1) { t with batchSize := none }

/-- Model of `dynamic_one_shot` (dynamic_one_shot.py): the early return for
circuits without mid-circuit measurements, the unsupported-measurement
`TypeError`, the finite-shots `QuantumFunctionError`, the
postselection/broadcasting `ValueError`, broadcast expansion, and the
construction of the auxiliary tapes with the one-shot postprocessing
closure.  An error is raised synchronously: an `Except.error` result
carries no tapes. -/
def dynamic_one_shot (t : Tape) : Except DynErr (List Tape × PostKind) :=
  if !(t.operations.any is_mcm) then .ok ([t], .nullPost)
  else
    match t.measurements.find? (fun m => !supported_mcm_meas m) with
    | some m =>
        .error (.typeErr ("Native mid-circuit measurement mode does not support " ++
          MKind.pyName m.kind ++ " measurements."))
    | none =>
      if !shots_truthy t.shots then
        .error (.qfErr "dynamic_one_shot is only supported with finite shots.")
      else
        let samples_present := t.measurements.any (fun m => m.kind == .sample)
        let postselect_present := t.operations.any
          (fun op => match op with
            | .midMeasure _ (some _) _ => true
            | _ => false)
        if samples_present && postselect_present && t.batchSize.isSome then
          .error (.valErr ("Returning qml.sample is not supported when postselecting " ++
            "mid-circuit measurements with broadcasting"))
        else
          let tapes := if t.batchSize.isSome then broadcast_expand t else [t]
          .ok (tapes.map init_auxiliary_tape, .oneShotPost)

/-! Decomposition rules and resources (decomposition_rule.py)

`CompressedResourceOp`, `Resources` and `resource_rep` live in
pennylane/decomposition/resources.py, which is not under src/; they are
modelled from the spec's resource model (§3 "Resources", §4.4). -/

/-- An operator class: its name and its declared `resource_keys`. -/
structure OpClass where
  name : String
  resource_keys : List String
deriving DecidableEq

/-- Modelled from the spec: a compressed operator representation — "a
compressed operator representation (type + resource-relevant
parameters)". -/
structure CompressedResourceOp where
  opName : String
  params : List (String × Int)
deriving DecidableEq

/-- Modelled from the spec: `qml.resource_rep` called with an operator
type and no parameters — "only operators with nonempty `resource_keys`
require an explicit parametrized representation; all others collapse to a
bare type key", and a bare type with nonempty keys "fail[s] with a type
error (ambiguous cost)". -/
def resource_rep (op : OpClass) : Except String CompressedResourceOp :=
  if op.resource_keys = [] then .ok ⟨op.name, []⟩
  else .error "resource_rep: missing resource parameters"

/-- A key of a raw resource dictionary: either an already-compressed
representation or a bare operator class (non-`Operator` keys, which raise
immediately in `_auto_wrap`, are outside the modelled domain). -/
inductive ResKey where
  | compressed (c : CompressedResourceOp)
  | opType (op : OpClass)
deriving DecidableEq

/-- Model of `_auto_wrap` (decomposition_rule.py): a `CompressedResourceOp` passes
through unchanged; a bare operator type is wrapped by `resource_rep`,
turning its failure into the "non-empty resource_keys" TypeError. -/
def auto_wrap : ResKey → Except String CompressedResourceOp
  | .compressed c => .ok c
  | .opType op =>
    match resource_rep op with
    | .ok c => .ok c
    | .error _ =>
        .error ("Operator " ++ op.name ++ " has non-empty resource_keys. A resource " ++
          "representation must be explicitly constructed using qml.resource_rep")

/-- Modelled from the spec: `Resources` — "a multiset (counter) mapping a
compressed operator representation ... to an occurrence count". -/
structure Resources where
  gate_counts : List (CompressedResourceOp × Int)
deriving DecidableEq

/-- Model of `Counter.update({rep: count})` over compressed representations. -/
def counterAddC (acc : List (CompressedResourceOp × Int)) (k : CompressedResourceOp)
    (v : Int) : List (CompressedResourceOp × Int) :=
  if acc.any (fun kv => kv.1 == k) then
    acc.map (fun kv => if kv.1 == k then (kv.1, kv.2 + v) else kv)
  else acc ++ [(k, v)]

/-- The canonicalization loop of `DecompositionRule.compute_resources`:
`for op, count in raw_gate_counts.items(): if count > 0:
gate_counter.update({_auto_wrap(op): count})`. -/
def compute_resources_dict (d : List (ResKey × Int)) : Except String Resources :=
  (d.foldlM
    (fun acc kv =>
      if kv.2 > 0 then (auto_wrap kv.1).map (fun c => counterAddC acc c kv.2)
      else pure acc)
    []).map Resources.mk

/-- An independent statement of the canonicalized form of a static
resource dictionary: translate the key of every positive-count entry to
its compressed representation and merge the counts into a counter. -/
def canonicalEntries (d : List (ResKey × Int)) :
    Except String (List (CompressedResourceOp × Int)) := do
  let pos := d.filter (fun kv => kv.2 > 0)
  let wrapped ← pos.mapM (fun kv => (auto_wrap kv.1).map (fun c => (c, kv.2)))
  pure (wrapped.foldl (fun acc kv => counterAddC acc kv.1 kv.2) [])

/-- Model of `DecompositionRule` (decomposition_rule.py), restricted to the fields
`compute_resources` uses: `_compute_resources` is `None` or a function of
the rule's call arguments returning a raw resource dictionary (the
executable rewrite `_impl` and `_condition` play no role in the claims
below). -/
structure DecompositionRuleM (α : Type) where
  compute_res : Option (α → List (ResKey × Int))

/-- Model of `DecompositionRule.__init__` with a static `resources` dictionary: the
dictionary is wrapped in `resource_fn(*_, **__): return resources`, a
closure ignoring its arguments. -/
def DecompositionRuleM.ofStaticDict (α : Type) (d : List (ResKey × Int)) :
    DecompositionRuleM α :=
  ⟨some (fun _ => d)⟩

/-- Model of `DecompositionRule.compute_resources`: raise if no resource estimation
was registered, otherwise call the resource function on the given
arguments and canonicalize the returned dictionary (the
`isinstance(..., dict)` assert always holds in the typed model). -/
def DecompositionRuleM.compute_resources {α : Type} (r : DecompositionRuleM α)
    (args : α) : Except String Resources :=
  match r.compute_res with
  | none => .error "No resource estimation found for this decomposition rule."
  | some f => compute_resources_dict (f args)

/-! The global decomposition registry (decomposition_rule.py)

`_decompositions` is a `defaultdict(list)` from operator name to a Python
list of rules.  To express aliasing — `list_decomps` returns a *copy*
(`[:]`) of the stored list — Python list objects live on an explicit
heap: an address is an index into `heap`, and the registry maps names to
addresses.  Rules themselves are abstracted as `Nat` ids.
`translate_op_alias` (pennylane/decomposition/utils.py, not under src/)
is abstracted as an arbitrary name-translation function `tr`. -/

structure DecompState where
  heap : List (List Nat)
  reg : List (String × Nat)
deriving DecidableEq

/-- Reading the list object at address `a`. -/
def heap_read (s : DecompState) (a : Nat) : List Nat := s.heap.getD a []

/-- Model of `_decompositions[key]` on the `defaultdict`: return the address of the
existing list, or insert a fresh empty list for a missing key. -/
def dd_get (s : DecompState) (key : String) : DecompState × Nat :=
  match s.reg.find? (fun kv => kv.1 == key) with
  | some kv => (s, kv.2)
  | none =>
      ({ heap := s.heap ++ [[]], reg := s.reg ++ [(key, s.heap.length)] },
        s.heap.length)

/-- Model of `list_decomps` (decomposition_rule.py):
`return _decompositions[translate_op_alias(op_type)][:]` — the slice
allocates a fresh list object with the same contents and returns its
address. -/
def list_decomps_state (tr : String → String) (s : DecompState) (opName : String) :
    DecompState × Nat :=
  let p := dd_get s (tr opName)
  let contents := heap_read p.1 p.2
  ({ p.1 with heap := p.1.heap ++ [contents] }, p.1.heap.length)

/-- In-place mutation of the list object at address `a` (what a caller
does to the list `list_decomps` returned). -/
def list_set (s : DecompState) (a : Nat) (xs : List Nat) : DecompState :=
  { s with heap := s.heap.set a xs }

/-- Model of `has_decomp` (decomposition_rule.py): `op_type in _decompositions and
len(_decompositions[op_type]) > 0` — the `in` test does not insert. -/
def has_decomp (tr : String → String) (s : DecompState) (opName : String) : Bool :=
  match s.reg.find? (fun kv => kv.1 == tr opName) with
  | some kv => (heap_read s kv.2).length > 0
  | none => false

/-- The registry contents observable for a name: what a (subsequent) call
to `list_decomps` would return as list contents ( `[]` for an absent
key). -/
def registry_view (tr : String → String) (s : DecompState) (opName : String) :
    List Nat :=
  match s.reg.find? (fun kv => kv.1 == tr opName) with
  | some kv => heap_read s kv.2
  | none => []

/-- Well-formedness of the registry: every registered address points into
the heap. -/
def reg_wf (s : DecompState) : Bool :=
  s.reg.all (fun kv => kv.2 < s.heap.length)

deriving instance DecidableEq for Except

/-! Concrete inputs used by the counterexamples and witnesses -/

/-- A non-broadcasted circuit with one mid-circuit measurement, one
supported terminal measurement and 3 shots. -/
def c3CounterTape : Tape :=
  { operations := [.midMeasure 0 none false]
    measurements := [⟨.expectation, false, 1⟩]
    shots := some [3]
    batchSize := none }

/-- A circuit with one mid-circuit measurement, an unsupported (state)
terminal measurement and analytic shots. -/
def c8CounterTape : Tape :=
  { operations := [.midMeasure 0 none false]
    measurements := [⟨.state, false, 1⟩]
    shots := none
    batchSize := none }

/-- Whether a `dynamic_one_shot` outcome is a `QuantumFunctionError`. -/
def isQFE : Except DynErr (List Tape × PostKind) → Bool
  | .error (.qfErr _) => true
  | _ => false

/-! Theorems -/

/-! General list lemmas -/

theorem list_all_congr {α : Type} {l : List α} {p q : α → Bool}
    (h : ∀ x ∈ l, p x = q x) : l.all p = l.all q := by
  induction l with
  | nil => rfl
  | cons a t ih =>
      have ha : p a = q a := h a (List.mem_cons_self a t)
      have ht := ih fun x hx => h x (List.mem_cons_of_mem a hx)
      rw [List.all_cons, List.all_cons, ha, ht]

theorem list_zip_map_self {α β γ : Type} (f : α → β) (g : α → β → γ) :
    ∀ l : List α, (l.zip (l.map f)).map (fun p => g p.1 p.2) = l.map (fun a => g a (f a))
  | [] => rfl
  | a :: t => by
      simp only [List.map_cons, List.zip_cons_cons]
      rw [list_zip_map_self f g t]

theorem list_getD_range_map {α : Type} (g : Nat → α) (d : α) (m j : Nat) (hj : j < m) :
    ((List.range m).map g).getD j d = g j := by
  rw [List.getD_eq_getElem _ d (by simpa using hj)]
  simp

theorem list_self_eq_range_map_getD {α : Type} (d : α) :
    ∀ w : List α, (List.range w.length).map (fun j => w.getD j d) = w
  | [] => rfl
  | a :: t => by
      rw [List.length_cons, List.range_succ_eq_map, List.map_cons, List.map_map]
      have h0 : (a :: t).getD 0 d = a := rfl
      have hs : ((fun j => (a :: t).getD j d) ∘ Nat.succ) = fun j => t.getD j d := by
        funext j
        rfl
      rw [h0, hs, list_self_eq_range_map_getD d t]

theorem list_sum_eq_range_getD (xs : List ℚ) :
    xs.sum = ∑ i ∈ Finset.range xs.length, xs.getD i 0 := by
  induction xs with
  | nil => simp
  | cons a t ih =>
      simp only [List.length_cons]
      rw [List.sum_cons, Finset.sum_range_succ']
      simp [List.getD_cons_succ, List.getD_cons_zero, ih, add_comm]

/-! Claim C5 -/

/-- Claim C5: `simulate` dispatches to the tree-MCM path exactly when the
circuit has nonzero (finite) shots and contains at least one mid-circuit
measurement among its operations; every other circuit gets the plain
`get_final_state` / `measure_final_state` pipeline result.  The hypothesis
states the well-formedness of constructible shot specifications (analytic
or positive). -/
theorem c5_simulate_dispatch {R : Type} (treeFn plainFn : Tape → R) (t : Tape)
    (hwf : ∀ l, t.shots = some l → 0 < l.sum) :
    (((∃ op ∈ t.operations, is_mcm op = true) ∧ (∃ l, t.shots = some l ∧ 0 < l.sum)) →
        simulate treeFn plainFn t = treeFn t) ∧
    (¬ ((∃ op ∈ t.operations, is_mcm op = true) ∧ (∃ l, t.shots = some l ∧ 0 < l.sum)) →
        simulate treeFn plainFn t = plainFn t) := by
  have hb : (shots_truthy t.shots && has_mid_circuit_measurements t) = true ↔
      ((∃ op ∈ t.operations, is_mcm op = true) ∧ (∃ l, t.shots = some l ∧ 0 < l.sum)) := by
    cases h : t.shots with
    | none => simp [shots_truthy]
    | some l =>
        simp only [shots_truthy, Bool.true_and]
        rw [has_mid_circuit_measurements, List.any_eq_true]
        constructor
        · intro hmcm
          exact ⟨hmcm, l, rfl, hwf l h⟩
        · rintro ⟨hmcm, -⟩
          exact hmcm
  constructor
  · intro hcond
    unfold simulate
    rw [if_pos (hb.mpr hcond)]
  · intro hcond
    unfold simulate
    rw [if_neg (fun hbt => hcond (hb.mp hbt))]

/-- Witness for C5 at concrete inputs: a one-mid-measure circuit with 5
shots goes down the tree path, and the same circuit with analytic shots
goes down the plain path. -/
theorem c5_simulate_dispatch_witness :
    simulate (fun _ => true) (fun _ => false)
        ⟨[QOp.midMeasure 0 none false], [], some [5], none⟩ = true ∧
    simulate (fun _ => true) (fun _ => false)
        ⟨[QOp.midMeasure 0 none false], [], none, none⟩ = false := by
  constructor
  · exact (c5_simulate_dispatch (fun _ => true) (fun _ => false)
        ⟨[QOp.midMeasure 0 none false], [], some [5], none⟩
        (fun l h => by cases h; decide)).1
      ⟨⟨QOp.midMeasure 0 none false, by decide, by decide⟩, [5], rfl, by decide⟩
  · exact (c5_simulate_dispatch (fun _ => true) (fun _ => false)
        ⟨[QOp.midMeasure 0 none false], [], none, none⟩
        (fun l h => by cases h)).2
      (by rintro ⟨-, l, hl, -⟩; cases hl)

/-! Claim C9 -/

/-- Claim C9: on a tape whose operations contain no mid-circuit
measurement, `dynamic_one_shot` does not fail: it returns the original
tape unchanged as a one-element batch together with
`null_postprocessing`, which extracts the first result. -/
theorem c9_no_mcm_passthrough {α : Type} (t : Tape) (x : α) (xs : List α)
    (h : ∀ op ∈ t.operations, is_mcm op = false) :
    dynamic_one_shot t = .ok ([t], .nullPost) ∧
    null_postprocessing (x :: xs) = some x := by
  refine ⟨?_, by simp [null_postprocessing]⟩
  have hany : t.operations.any is_mcm = false := by
    rw [List.any_eq_false]
    intro op hop
    simp [h op hop]
  unfold dynamic_one_shot
  rw [hany]
  rfl

/-- Witness for C9 at a concrete gate-only tape. -/
theorem c9_no_mcm_passthrough_witness :
    dynamic_one_shot ⟨[QOp.gate "RX"], [⟨.expectation, false, 1⟩], some [7], none⟩ =
      .ok ([⟨[QOp.gate "RX"], [⟨.expectation, false, 1⟩], some [7], none⟩], .nullPost) ∧
    null_postprocessing [3, 4] = some 3 :=
  c9_no_mcm_passthrough
    ⟨[QOp.gate "RX"], [⟨.expectation, false, 1⟩], some [7], none⟩ 3 [4]
    (by decide)

/-! Claim C4 -/

/-- The canonicalization fold of `compute_resources` computes, from any
starting counter, the independently stated canonical form: wrap the keys
of the positive-count entries and merge them into the counter. -/
theorem foldlM_canonical (d : List (ResKey × Int)) :
    ∀ acc : List (CompressedResourceOp × Int),
      (d.foldlM
        (fun acc kv =>
          if kv.2 > 0 then (auto_wrap kv.1).map (fun c => counterAddC acc c kv.2)
          else pure acc)
        acc : Except String (List (CompressedResourceOp × Int))) =
      (do
        let wrapped ← (d.filter (fun kv => kv.2 > 0)).mapM
          (fun kv => (auto_wrap kv.1).map (fun c => (c, kv.2)))
        pure (wrapped.foldl (fun acc kv => counterAddC acc kv.1 kv.2) acc)) := by
  induction d with
  | nil => intro acc; rfl
  | cons kv rest ih =>
      intro acc
      by_cases hpos : kv.2 > 0
      · rw [List.foldlM_cons, if_pos hpos,
          List.filter_cons_of_pos (by simpa using hpos), List.mapM_cons]
        cases hw : auto_wrap kv.1 with
        | error e => rfl
        | ok c =>
            refine (ih (counterAddC acc c kv.2)).trans ?_
            cases hm : (List.filter (fun kv => kv.2 > 0) rest).mapM
                (fun kv => (auto_wrap kv.1).map (fun c => (c, kv.2))) with
            | error e => rfl
            | ok ws => rfl
      · rw [List.foldlM_cons, if_neg hpos,
          List.filter_cons_of_neg (by simpa using hpos)]
        exact ih acc

/-- Claim C4: a `DecompositionRule` constructed with a static resource
dictionary computes, for any arguments, exactly the dictionary's
canonicalized form (each positive-count key translated to its compressed
representation and merged), independent of the arguments passed. -/
theorem c4_static_resource_closure {α : Type} (d : List (ResKey × Int))
    (args args' : α) :
    (DecompositionRuleM.ofStaticDict α d).compute_resources args =
      (DecompositionRuleM.ofStaticDict α d).compute_resources args' ∧
    (DecompositionRuleM.ofStaticDict α d).compute_resources args =
      (canonicalEntries d).map Resources.mk := by
  refine ⟨rfl, ?_⟩
  show compute_resources_dict d = (canonicalEntries d).map Resources.mk
  unfold compute_resources_dict canonicalEntries
  rw [foldlM_canonical d []]

/-! Claim C3 -/

/-- Counterexample for C3: for a non-broadcasted 3-shot circuit with one
mid-circuit measurement, `dynamic_one_shot` returns a batch of ONE
auxiliary tape, not `total_shots = 3` single-shot tapes (the three
single-shot executions live in the one tape's shot vector). -/
theorem c3_counterexample :
    (dynamic_one_shot c3CounterTape).map (fun p => p.1.length) = .ok 1 ∧
    tape_total_shots c3CounterTape = 3 ∧
    (dynamic_one_shot c3CounterTape).map (fun p => p.1.length) ≠
      .ok (tape_total_shots c3CounterTape) := by
  refine ⟨by decide, by decide, by decide⟩

/-- Claim C3 (amended): for every non-broadcasted circuit with finite
shots, at least one mid-circuit measurement and only supported terminal
measurements, `dynamic_one_shot` returns a batch containing a single
auxiliary tape whose shot specification is `total_shots` copies of one
shot (so it encodes `total_shots` single-shot executions), together with
the one-shot postprocessing function. -/
theorem c3_one_shot_tapes (t : Tape) (h1 : t.batchSize = none)
    (h2 : shots_truthy t.shots = true) (h3 : t.operations.any is_mcm = true)
    (h4 : ∀ m ∈ t.measurements, supported_mcm_meas m = true) :
    dynamic_one_shot t = .ok ([init_auxiliary_tape t], .oneShotPost) ∧
    (init_auxiliary_tape t).shots = some (List.replicate (tape_total_shots t) 1) := by
  have hfind : t.measurements.find? (fun m => !supported_mcm_meas m) = none := by
    rw [List.find?_eq_none]
    intro m hm
    simp [h4 m hm]
  refine ⟨?_, rfl⟩
  simp [dynamic_one_shot, h3, hfind, h2, h1]

/-- Witness for C3 (amended) at the concrete 3-shot tape. -/
theorem c3_one_shot_tapes_witness :
    dynamic_one_shot c3CounterTape = .ok ([init_auxiliary_tape c3CounterTape], .oneShotPost) ∧
    (init_auxiliary_tape c3CounterTape).shots =
      some (List.replicate (tape_total_shots c3CounterTape) 1) :=
  c3_one_shot_tapes c3CounterTape rfl rfl (by decide) (by decide)

/-! Claim C8 -/

/-- Counterexample for C8: a tape with a mid-circuit measurement, an
unsupported (state) terminal measurement and analytic shots raises the
unsupported-measurement TypeError, NOT a QuantumFunctionError — the
measurement check precedes the finite-shots check, so the claim's "raises
a QuantumFunctionError for every such tape whose shots are analytic" fails
at this input. -/
theorem c8_counterexample :
    has_mid_circuit_measurements c8CounterTape = true ∧
    c8CounterTape.shots = none ∧
    isQFE (dynamic_one_shot c8CounterTape) = false ∧
    dynamic_one_shot c8CounterTape =
      .error (.typeErr ("Native mid-circuit measurement mode does not support " ++
        "StateMP measurements.")) := by
  refine ⟨by decide, rfl, by decide, by decide⟩

/-- Claim C8 (amended): on a tape containing a mid-circuit measurement,
`dynamic_one_shot` raises a TypeError whenever some terminal measurement
kind is outside {Counts, Expectation, Probability, Sample, Variance}, and
raises a QuantumFunctionError whenever the shots are analytic AND all
terminal measurements are supported (the measurement check runs first).
Both errors are raised synchronously: an `Except.error` result carries no
tapes. -/
theorem c8_error_conditions (t : Tape) (hmcm : t.operations.any is_mcm = true) :
    ((∃ m ∈ t.measurements, supported_mcm_meas m = false) →
        ∃ msg, dynamic_one_shot t = .error (.typeErr msg)) ∧
    (t.shots = none → (∀ m ∈ t.measurements, supported_mcm_meas m = true) →
        dynamic_one_shot t =
          .error (.qfErr "dynamic_one_shot is only supported with finite shots.")) := by
  constructor
  · rintro ⟨m, hm, hbad⟩
    have hsome : (t.measurements.find? (fun m => !supported_mcm_meas m)).isSome := by
      rw [List.find?_isSome]
      exact ⟨m, hm, by simp [hbad]⟩
    obtain ⟨m', hm'⟩ := Option.isSome_iff_exists.mp hsome
    refine ⟨"Native mid-circuit measurement mode does not support " ++
      MKind.pyName m'.kind ++ " measurements.", ?_⟩
    simp [dynamic_one_shot, hmcm, hm']
  · intro hshots hsup
    have hfind : t.measurements.find? (fun m => !supported_mcm_meas m) = none := by
      rw [List.find?_eq_none]
      intro m hm
      simp [hsup m hm]
    simp [dynamic_one_shot, hmcm, hfind, hshots, shots_truthy]

/-- Witness for C8 (amended): the TypeError arm at a finite-shot tape with
a state measurement, and the QuantumFunctionError arm at an analytic tape
with a supported measurement. -/
theorem c8_error_conditions_witness :
    (∃ msg, dynamic_one_shot
        ⟨[QOp.midMeasure 0 none false], [⟨.state, false, 1⟩], some [2], none⟩ =
          .error (.typeErr msg)) ∧
    dynamic_one_shot
        ⟨[QOp.midMeasure 0 none false], [⟨.expectation, false, 1⟩], none, none⟩ =
      .error (.qfErr "dynamic_one_shot is only supported with finite shots.") :=
  ⟨(c8_error_conditions
      ⟨[QOp.midMeasure 0 none false], [⟨.state, false, 1⟩], some [2], none⟩
      (by decide)).1 ⟨⟨.state, false, 1⟩, by decide, by decide⟩,
   (c8_error_conditions
      ⟨[QOp.midMeasure 0 none false], [⟨.expectation, false, 1⟩], none, none⟩
      (by decide)).2 rfl (by decide)⟩

/-! Claim C2 -/

theorem list_map_eq_range_map {α β : Type} (g : α → β) (d : α) (xs : List α) :
    xs.map g = (List.range xs.length).map (fun j => g (xs.getD j d)) := by
  conv_lhs => rw [← list_self_eq_range_map_getD d xs]
  rw [List.map_map]
  rfl

theorem list_zipWith_range (f : ℚ → ℚ → ℚ) :
    ∀ (w xs : List ℚ), w.length = xs.length →
      List.zipWith f w xs =
        (List.range w.length).map (fun j => f (w.getD j 0) (xs.getD j 0)) := by
  intro w
  induction w with
  | nil => intro xs _; simp
  | cons a w' ih =>
      intro xs hlen
      cases xs with
      | nil => simp at hlen
      | cons b xs' =>
          simp only [List.length_cons] at hlen
          simp only [List.zipWith_cons_cons, List.length_cons, List.range_succ_eq_map,
            List.map_cons, List.map_map]
          congr 1
          rw [ih xs' (by omega)]
          rfl

/-- The weighted-sum invariant of the expectation-combination fold. -/
theorem expectation_fold (l : List (Int × Nat × ℚ)) :
    ∀ (q : ℚ) (t : Nat),
      List.foldl
        (fun acc v => (SimVal.add acc.1 (SimVal.scale v.2.1 v.2.2), acc.2 + v.2.1))
        (SimVal.num q, t) (l.map (fun v => (v.1, v.2.1, SimVal.num v.2.2))) =
      (SimVal.num (q + (l.map (fun v => (v.2.1 : ℚ) * v.2.2)).sum),
        t + (l.map (fun v => v.2.1)).sum) := by
  induction l with
  | nil => intro q t; simp
  | cons v rest ih =>
      intro q t
      simp only [List.map_cons, List.foldl_cons, List.sum_cons]
      have hstep :
          (SimVal.add (SimVal.num q, t).1 (SimVal.scale v.2.1 (SimVal.num v.2.2)),
            (SimVal.num q, t).2 + v.2.1) =
          ((SimVal.num (q + (v.2.1 : ℚ) * v.2.2), t + v.2.1) :
            SimVal × Nat) := rfl
      rw [hstep, ih]
      rw [add_assoc, Nat.add_assoc]

/-- The pointwise weighted-sum invariant of the probability-combination
fold, for branch probability vectors of uniform length `m`. -/
theorem probability_fold (m : Nat) :
    ∀ (vs : List (Int × Nat × List ℚ)) (w : List ℚ) (t : Nat),
      (∀ v ∈ vs, v.2.2.length = m) → w.length = m →
      List.foldl
        (fun acc v => (SimVal.add acc.1 (SimVal.scale v.2.1 v.2.2), acc.2 + v.2.1))
        (SimVal.arr w, t) (vs.map (fun v => (v.1, v.2.1, SimVal.arr v.2.2))) =
      (SimVal.arr ((List.range m).map (fun j =>
          w.getD j 0 + (vs.map (fun v => (v.2.1 : ℚ) * v.2.2.getD j 0)).sum)),
        t + (vs.map (fun v => v.2.1)).sum) := by
  intro vs
  induction vs with
  | nil =>
      intro w t _ hw
      simp only [List.map_nil, List.foldl_nil, List.sum_nil, Nat.add_zero]
      congr 1
      have h1 : (List.range m).map (fun j => w.getD j 0 + (0 : ℚ)) =
          (List.range w.length).map (fun j => w.getD j 0) := by
        rw [hw]
        simp
      rw [h1, list_self_eq_range_map_getD]
  | cons v rest ih =>
      intro w t hlen hw
      have hxs : v.2.2.length = m := hlen v (by simp)
      simp only [List.map_cons, List.foldl_cons]
      have hscale : SimVal.scale v.2.1 (SimVal.arr v.2.2) =
          SimVal.arr (v.2.2.map (fun x => (v.2.1 : ℚ) * x)) := rfl
      have hlens : w.length = (v.2.2.map (fun x => (v.2.1 : ℚ) * x)).length := by
        rw [List.length_map, hw, hxs]
      have hadd : SimVal.add (SimVal.arr w)
          (SimVal.arr (v.2.2.map (fun x => (v.2.1 : ℚ) * x))) =
          SimVal.arr (List.zipWith (fun x y => x + y) w
            (v.2.2.map (fun x => (v.2.1 : ℚ) * x))) := by
        simp [SimVal.add, hw, hxs]
      have hstep :
          (SimVal.add (SimVal.arr w, t).1 (SimVal.scale v.2.1 (SimVal.arr v.2.2)),
            (SimVal.arr w, t).2 + v.2.1) =
          ((SimVal.arr (List.zipWith (fun x y => x + y) w
              (v.2.2.map (fun x => (v.2.1 : ℚ) * x))), t + v.2.1) :
            SimVal × Nat) := by
        show (SimVal.add (SimVal.arr w) (SimVal.scale v.2.1 (SimVal.arr v.2.2)), t + v.2.1) = _
        rw [hscale, hadd]
      rw [hstep]
      have hwlen : (List.zipWith (fun x y => x + y) w
          (v.2.2.map (fun x => (v.2.1 : ℚ) * x))).length = m := by
        rw [List.length_zipWith, List.length_map, hw, hxs, Nat.min_self]
      rw [ih _ _ (fun x hx => hlen x (by simp [hx])) hwlen]
      simp only [List.sum_cons]
      congr 1
      · congr 1
        apply List.map_congr_left
        intro j hj
        have hjm : j < m := List.mem_range.mp hj
        have hzip : (List.zipWith (fun x y => x + y) w
            (v.2.2.map (fun x => (v.2.1 : ℚ) * x))).getD j 0 =
            w.getD j 0 + (v.2.1 : ℚ) * v.2.2.getD j 0 := by
          rw [List.getD_eq_getElem _ _ (by rw [hwlen]; exact hjm)]
          rw [List.getElem_zipWith]
          rw [List.getD_eq_getElem w _ (by rw [hw]; exact hjm)]
          rw [List.getD_eq_getElem v.2.2 _ (by rw [hxs]; exact hjm)]
          congr 1
          exact (List.getElem_map _).symm ▸ rfl
        rw [hzip, add_assoc]
      · rw [Nat.add_assoc]

/-- Claim C2: for every non-empty branch dictionary, the expectation and
probability combination cores return the weighted average — the sum over
branches of `shot_count * value` divided by the total shot count (for
probabilities, componentwise over vectors of uniform length `m`). -/
theorem c2_weighted_average (l : List (Int × Nat × ℚ)) (hl : l ≠ [])
    (m : Nat) (vs : List (Int × Nat × List ℚ)) (hvs : vs ≠ [])
    (hm : ∀ v ∈ vs, v.2.2.length = m) :
    combine_core_expectation (l.map (fun v => (v.1, v.2.1, SimVal.num v.2.2))) =
      .num ((l.map (fun v => (v.2.1 : ℚ) * v.2.2)).sum /
        (((l.map (fun v => v.2.1)).sum : Nat) : ℚ)) ∧
    combine_core_probability (vs.map (fun v => (v.1, v.2.1, SimVal.arr v.2.2))) =
      .arr ((List.range m).map (fun j =>
        (vs.map (fun v => (v.2.1 : ℚ) * v.2.2.getD j 0)).sum /
          (((vs.map (fun v => v.2.1)).sum : Nat) : ℚ))) := by
  constructor
  · unfold combine_core_expectation
    rw [expectation_fold l 0 0]
    simp only [zero_add, Nat.zero_add]
    rfl
  · cases vs with
    | nil => exact absurd rfl hvs
    | cons v rest =>
        unfold combine_core_probability
        have hxs : v.2.2.length = m := hm v (by simp)
        simp only [List.map_cons, List.foldl_cons]
        have hstep :
            (SimVal.add (SimVal.num 0, 0).1 (SimVal.scale v.2.1 (SimVal.arr v.2.2)),
              (SimVal.num 0, 0).2 + v.2.1) =
            ((SimVal.arr ((List.range m).map (fun j => (v.2.1 : ℚ) * v.2.2.getD j 0)),
                v.2.1) : SimVal × Nat) := by
          show (SimVal.add (SimVal.num 0) (SimVal.arr (v.2.2.map (fun x => (v.2.1 : ℚ) * x))),
            0 + v.2.1) = _
          have h0 : SimVal.add (SimVal.num 0)
              (SimVal.arr (v.2.2.map (fun x => (v.2.1 : ℚ) * x))) =
              SimVal.arr ((v.2.2.map (fun x => (v.2.1 : ℚ) * x)).map (fun y => 0 + y)) := rfl
          rw [h0]
          congr 1
          · congr 1
            rw [List.map_map]
            have : ((fun y => (0 : ℚ) + y) ∘ fun x => (v.2.1 : ℚ) * x) =
                fun x => (v.2.1 : ℚ) * x := by
              funext x
              simp
            rw [this]
            rw [list_map_eq_range_map (fun x => (v.2.1 : ℚ) * x) 0 v.2.2, hxs]
          · omega
        rw [hstep]
        rw [probability_fold m rest _ v.2.1 (fun x hx => hm x (by simp [hx]))
          (by rw [List.length_map, List.length_range])]
        show SimVal.divNat _ _ = _
        have hdiv : ∀ (W : List ℚ) (T : Nat), SimVal.divNat (SimVal.arr W) T =
            SimVal.arr (W.map (fun x => x / (T : ℚ))) := fun W T => rfl
        rw [hdiv, List.map_map]
        congr 1
        apply List.map_congr_left
        intro j hj
        have hjm : j < m := List.mem_range.mp hj
        show (((List.range m).map (fun j => (v.2.1 : ℚ) * v.2.2.getD j 0)).getD j 0 +
            (rest.map (fun v => (v.2.1 : ℚ) * v.2.2.getD j 0)).sum) /
            (((v.2.1 + (rest.map (fun v => v.2.1)).sum : Nat) : ℚ)) = _
        rw [list_getD_range_map _ _ m j hjm]
        rw [List.sum_cons, List.sum_cons]

/-- Witness for C2 at concrete branch dictionaries. -/
theorem c2_weighted_average_witness :
    combine_core_expectation
        ([((0 : Int), (2 : Nat), (1/2 : ℚ)), (1, 3, 1)].map
          (fun v => (v.1, v.2.1, SimVal.num v.2.2))) = .num (4/5) ∧
    combine_core_probability
        ([((0 : Int), (2 : Nat), [(1 : ℚ), 0]), (1, 2, [1/2, 1/2])].map
          (fun v => (v.1, v.2.1, SimVal.arr v.2.2))) = .arr [3/4, 1/4] := by
  have h := c2_weighted_average [((0 : Int), (2 : Nat), (1/2 : ℚ)), (1, 3, 1)] (by decide)
      2 [((0 : Int), (2 : Nat), [(1 : ℚ), 0]), (1, 2, [1/2, 1/2])] (by decide) (by decide)
  refine ⟨h.1.trans ?_, h.2.trans ?_⟩
  · norm_num
  · norm_num [List.range_succ]

/-! Claim C7 -/

theorem normSq_eq_range_sum (v : List ℚ) :
    normSq v = ∑ i ∈ Finset.range v.length, v.getD i 0 * v.getD i 0 := by
  unfold normSq
  rw [list_sum_eq_range_getD, List.length_map]
  apply Finset.sum_congr rfl
  intro i hi
  have hilt : i < v.length := Finset.mem_range.mp hi
  rw [List.getD_eq_getElem _ _ (by simpa using hilt), List.getElem_map,
    List.getD_eq_getElem _ _ hilt]

theorem flipIdx_lt (n w i : Nat) (hw : w < n) (hi : i < 2 ^ n) :
    flipIdx n w i < 2 ^ n := by
  unfold flipIdx
  exact Nat.xor_lt_two_pow hi (Nat.pow_lt_pow_right (by omega) (by omega))

theorem flipIdx_invol (n w i : Nat) : flipIdx n w (flipIdx n w i) = i := by
  unfold flipIdx
  rw [Nat.xor_assoc]
  simp

theorem length_pauliXPerm (n w : Nat) (v : List ℚ) :
    (pauliXPerm n w v).length = v.length := by
  unfold pauliXPerm
  rw [List.length_map, List.length_range]

theorem getD_pauliXPerm (n w : Nat) (v : List ℚ) (j : Nat) (hj : j < v.length) :
    (pauliXPerm n w v).getD j 0 = v.getD (flipIdx n w j) 0 := by
  unfold pauliXPerm
  exact list_getD_range_map _ 0 v.length j hj

/-- The PauliX bit-flip permutes amplitudes, so it preserves the squared
norm of any state vector over `n` wires. -/
theorem normSq_pauliXPerm (n w : Nat) (v : List ℚ) (hw : w < n)
    (hv : v.length = 2 ^ n) : normSq (pauliXPerm n w v) = normSq v := by
  rw [normSq_eq_range_sum, normSq_eq_range_sum, length_pauliXPerm, hv]
  refine Finset.sum_nbij' (fun i => flipIdx n w i) (fun i => flipIdx n w i)
    ?_ ?_ ?_ ?_ ?_
  · intro a ha
    exact Finset.mem_range.mpr (flipIdx_lt n w a hw (Finset.mem_range.mp ha))
  · intro a ha
    exact Finset.mem_range.mpr (flipIdx_lt n w a hw (Finset.mem_range.mp ha))
  · intro a _
    exact flipIdx_invol n w a
  · intro a _
    exact flipIdx_invol n w a
  · intro a ha
    have halt : a < 2 ^ n := Finset.mem_range.mp ha
    rw [getD_pauliXPerm n w v a (by rw [hv]; exact halt)]

theorem length_projectBranch (n w : Nat) (branch : Int) (state : List ℚ) :
    (projectBranch n w branch state).length = state.length := by
  unfold projectBranch
  exact List.length_mapIdx

/-- Claim C7: during branch collapse, a projected state with norm below
1e-15 (equivalently, squared norm below 1e-30) raises a ValueError;
otherwise the projected state is divided by its norm (recorded exactly via
`scaleSq`), with a PauliX bit-flip applied exactly when the measurement
resets and the outcome branch is 1; the returned amplitudes carry the full
squared norm (the flip permutes amplitudes), so the represented state
`vec / sqrt scaleSq` is the normalized projection. -/
theorem c7_branch_collapse (reset : Bool) (n w : Nat) (branch : Int)
    (state : List ℚ) (hw : w < n) (hl : state.length = 2 ^ n) :
    (normSq (projectBranch n w branch state) < 1 / 10 ^ 30 →
      branch_state reset n w branch state = .error "Cannot normalize state") ∧
    (¬ normSq (projectBranch n w branch state) < 1 / 10 ^ 30 →
      branch_state reset n w branch state =
        .ok ⟨(if reset && branch == 1 then
                pauliXPerm n w (projectBranch n w branch state)
              else projectBranch n w branch state),
             normSq (projectBranch n w branch state)⟩ ∧
      normSq (projectBranch n w branch state) ≠ 0 ∧
      ∀ r, branch_state reset n w branch state = .ok r →
        normSq r.vec = normSq (projectBranch n w branch state)) := by
  constructor
  · intro hsmall
    unfold branch_state
    rw [if_pos hsmall]
  · intro hbig
    have heq : branch_state reset n w branch state =
        .ok ⟨(if reset && branch == 1 then
                pauliXPerm n w (projectBranch n w branch state)
              else projectBranch n w branch state),
             normSq (projectBranch n w branch state)⟩ := by
      unfold branch_state
      rw [if_neg hbig]
      by_cases hfl : reset && branch == 1
      · rw [if_pos hfl, if_pos hfl]
      · rw [if_neg hfl, if_neg hfl]
    refine ⟨heq, ?_, ?_⟩
    · intro h0
      rw [h0] at hbig
      exact hbig (by norm_num)
    · intro r hr
      rw [heq] at hr
      injection hr with hr'
      rw [← hr']
      by_cases hfl : reset && branch == 1
      · rw [if_pos hfl]
        exact normSq_pauliXPerm n w _ hw
          ((length_projectBranch n w branch state).trans hl)
      · rw [if_neg hfl]

/-- Witness for C7: collapsing the single-wire state `[1, 0]` onto branch
0 succeeds with unit squared norm. -/
theorem c7_branch_collapse_witness :
    branch_state false 1 0 0 [1, 0] = .ok ⟨[1, 0], 1⟩ := by
  have hp : projectBranch 1 0 0 [1, 0] = [1, 0] := by decide
  have h := ((c7_branch_collapse false 1 0 0 [1, 0] (by decide) (by decide)).2
    (by rw [hp]; norm_num [normSq])).1
  rw [h, hp]
  norm_num [normSq]

/-! Claim C6 -/

/-- With empty recorded samples, every iteration of the combination loop
produces the NaN placeholder (possibly squeezed for sample measurements):
the `new_measurements` state is `[{}]` until the first non-mv measurement
pops the empty dictionary, and `[]` afterwards. -/
theorem combineLoop_all_pruned (gather : MeasSpec → SampleDict → SimVal)
    (mcm_samples : SampleDict) :
    ∀ (cms : List MeasSpec) (nms : List (List (Int × Nat × SimVal))),
      nms = [] ∨ nms = [[]] →
      combineLoop gather mcm_samples true cms nms =
        .ok (cms.map (fun m =>
          if m.kind = .sample then (measurement_with_no_shots m).squeeze
          else measurement_with_no_shots m)) := by
  intro cms
  induction cms with
  | nil => rintro nms (rfl | rfl) <;> rfl
  | cons m rest ih =>
      rintro nms (rfl | rfl)
      · cases hmv : m.mv
        · simp only [combineLoop, hmv, Bool.false_and, Bool.and_self, Bool.false_eq_true,
            if_false, Bind.bind, Except.bind]
          rw [ih [] (Or.inl rfl)]
          rfl
        · simp only [combineLoop, hmv, Bool.true_and, if_true, Bind.bind, Except.bind]
          rw [ih [] (Or.inl rfl)]
          rfl
      · cases hmv : m.mv
        · simp only [combineLoop, hmv, Bool.false_and, Bool.and_self, Bool.false_eq_true,
            if_false, List.isEmpty_nil, if_true, Bind.bind, Except.bind]
          rw [ih [] (Or.inl rfl)]
          rfl
        · simp only [combineLoop, hmv, Bool.true_and, if_true, Bind.bind, Except.bind]
          rw [ih [[]] (Or.inr rfl)]
          rfl

/-- The variance post-treatment and the sample squeeze leave the NaN
placeholder unchanged. -/
theorem varPost_placeholder (m : MeasSpec) :
    varPost m (if m.kind = .sample then (measurement_with_no_shots m).squeeze
               else measurement_with_no_shots m) = measurement_with_no_shots m := by
  rcases m with ⟨kind, mv, eig⟩
  cases kind <;> cases mv <;>
    simp [varPost, measurement_with_no_shots, SimVal.squeeze, SimVal.variance]

/-- Claim C6: when every shot was rejected by postselection — the branch
dictionary is empty and every recorded `mcm_samples` array is empty —
`combine_measurements` does not raise: it returns, for every measurement,
the NaN-filled placeholder of the measurement's expected shape (a NaN
array of eigvals shape for probability measurements, a NaN scalar
otherwise; in particular this covers every measurement that does not
depend on a mid-circuit measurement value). -/
theorem c6_all_invalid_nan (gather : MeasSpec → SampleDict → SimVal)
    (cms : List MeasSpec) (kv : Nat × List Int) (rest : SampleDict)
    (h : ∀ e ∈ (kv :: rest : SampleDict), e.2 = ([] : List Int)) :
    combine_measurements gather cms [] (kv :: rest) =
      .ok (wrapResult (cms.map measurement_with_no_shots)) := by
  have hkv : kv.2 = [] := h kv (by simp)
  have hany : (kv :: rest).any (fun e => e.2.length != 0) = false := by
    rw [List.any_eq_false]
    intro e he
    simp [h e he]
  have hempty : (kv.2.length == 0) = true := by
    rw [hkv]
    rfl
  unfold combine_measurements
  simp only [hempty, hany, Bool.and_false, Bool.false_eq_true, if_false, List.map_nil,
    Bind.bind, Except.bind, Pure.pure, Except.pure]
  rw [combineLoop_all_pruned gather (kv :: rest) cms [[]] (Or.inr rfl)]
  show Except.ok (wrapResult ((cms.zip _).map (fun p => varPost p.1 p.2))) = _
  rw [list_zip_map_self]
  congr 1
  congr 1
  apply List.map_congr_left
  intro m _
  exact varPost_placeholder m

/-- Witness for C6: an expectation and a probability measurement over an
all-pruned sample dictionary both come back as NaN placeholders. -/
theorem c6_all_invalid_nan_witness :
    combine_measurements (fun _ _ => SimVal.nanScalar)
        [⟨MKind.expectation, false, 1⟩, ⟨MKind.probability, false, 4⟩] [] [(0, [])] =
      .ok (.tuple [SimVal.nanScalar, SimVal.nanArr 4]) :=
  (c6_all_invalid_nan (fun _ _ => SimVal.nanScalar)
    [⟨MKind.expectation, false, 1⟩, ⟨MKind.probability, false, 4⟩] (0, []) []
    (by decide)).trans (by decide)


/-! Claim C10 -/

theorem getD_set_ne {α : Type} (l : List α) (p q : Nat) (x d : α) (h : p ≠ q) :
    (l.set p x).getD q d = l.getD q d := by
  simp [List.getD_eq_getElem?_getD, List.getElem?_set_ne h]

theorem getD_append_left {α : Type} (l l' : List α) (i : Nat) (d : α)
    (h : i < l.length) : (l ++ l').getD i d = l.getD i d := by
  simp [List.getD_eq_getElem?_getD, List.getElem?_append, h]

theorem getD_append_at_length {α : Type} (l : List α) (x : α) (l' : List α) (d : α) :
    (l ++ x :: l').getD l.length d = x := by
  simp [List.getD_eq_getElem?_getD, List.getElem?_append_right (Nat.le_refl _)]

/-- Addresses registered in a well-formed state point into the heap. -/
theorem reg_wf_lt (s : DecompState) (hwf : reg_wf s = true) :
    ∀ kv ∈ s.reg, kv.2 < s.heap.length := by
  intro kv hkv
  have := List.all_eq_true.mp hwf kv hkv
  simpa using this

/-- The result of `has_decomp` is determined by the observable registry
contents. -/
theorem has_decomp_eq_view (tr : String → String) (s : DecompState) (q : String) :
    has_decomp tr s q = decide (0 < (registry_view tr s q).length) := by
  unfold has_decomp registry_view
  cases hq : s.reg.find? (fun kv => kv.1 == tr q) <;> rfl

/-- Two states with the same registry mapping and the same contents at
every registered address have the same observable registry contents. -/
theorem registry_view_congr (tr : String → String) (s' s : DecompState) (q : String)
    (hreg : s'.reg = s.reg)
    (hvals : ∀ kv ∈ s.reg, heap_read s' kv.2 = heap_read s kv.2) :
    registry_view tr s' q = registry_view tr s q := by
  unfold registry_view
  rw [hreg]
  cases hq : s.reg.find? (fun kv => kv.1 == tr q) with
  | some kvq => exact hvals kvq (List.mem_of_find?_eq_some hq)
  | none => rfl

/-- Appending a registry entry whose list object is empty (the
`defaultdict` insertion) does not change the observable registry
contents either. -/
theorem registry_view_append_empty (tr : String → String) (s' s : DecompState)
    (key : String) (L : Nat) (q : String)
    (hreg : s'.reg = s.reg ++ [(key, L)])
    (hvals : ∀ kv ∈ s.reg, heap_read s' kv.2 = heap_read s kv.2)
    (hL : heap_read s' L = []) :
    registry_view tr s' q = registry_view tr s q := by
  unfold registry_view
  rw [hreg, List.find?_append]
  cases hq : s.reg.find? (fun kv => kv.1 == tr q) with
  | some kvq => exact hvals kvq (List.mem_of_find?_eq_some hq)
  | none =>
      by_cases hk : ((key == tr q) = true)
      · have hfind : ([(key, L)] : List (String × Nat)).find?
            (fun kv => kv.1 == tr q) = some (key, L) :=
          @List.find?_cons_of_pos _ (fun kv => kv.1 == tr q) (key, L) []
            (by simpa using hk)
        rw [hfind]
        exact hL
      · have hfind : ([(key, L)] : List (String × Nat)).find?
            (fun kv => kv.1 == tr q) = none := by
          rw [@List.find?_cons_of_neg _ (fun kv => kv.1 == tr q) (key, L) []
            (by simpa using hk)]
          rfl
        rw [hfind]
        rfl

/-- Claim C10: `list_decomps` returns a fresh copy of the registered rule
list: the returned list object holds exactly the registry's observable
contents, and overwriting that object afterwards changes neither the
registry mapping nor any registered list object, so `has_decomp` and the
contents a subsequent `list_decomps` would return agree with the state
before the mutation. -/
theorem c10_list_decomps_copy (tr : String → String) (s : DecompState)
    (opName : String) (hwf : reg_wf s = true) (s1 : DecompState) (a : Nat)
    (hcall : list_decomps_state tr s opName = (s1, a)) (newContents : List Nat) :
    heap_read s1 a = registry_view tr s opName ∧
    (list_set s1 a newContents).reg = s1.reg ∧
    (∀ kv ∈ s1.reg, heap_read (list_set s1 a newContents) kv.2 = heap_read s1 kv.2) ∧
    (∀ q, has_decomp tr (list_set s1 a newContents) q = has_decomp tr s q) ∧
    (∀ q, registry_view tr (list_set s1 a newContents) q = registry_view tr s q) := by
  cases hdd : s.reg.find? (fun kv => kv.1 == tr opName) with
  | some kv0 =>
      have hp : list_decomps_state tr s opName =
          ({ heap := s.heap ++ [heap_read s kv0.2], reg := s.reg }, s.heap.length) := by
        unfold list_decomps_state dd_get
        rw [hdd]
      rw [hp] at hcall
      injection hcall with h1 h2
      subst h1
      subst h2
      have hkv0lt : kv0.2 < s.heap.length :=
        reg_wf_lt s hwf kv0 (List.mem_of_find?_eq_some hdd)
      have hread2 : ∀ b : Nat, b < s.heap.length →
          heap_read (list_set
            ({ heap := s.heap ++ [heap_read s kv0.2], reg := s.reg } : DecompState)
            s.heap.length newContents) b = heap_read s b := by
        intro b hb
        show ((s.heap ++ [heap_read s kv0.2]).set s.heap.length newContents).getD b []
          = s.heap.getD b []
        rw [getD_set_ne _ _ _ _ _ (by omega), getD_append_left _ _ _ _ hb]
      have hread1 : ∀ b : Nat, b < s.heap.length →
          heap_read ({ heap := s.heap ++ [heap_read s kv0.2], reg := s.reg } :
            DecompState) b = heap_read s b := by
        intro b hb
        show (s.heap ++ [heap_read s kv0.2]).getD b [] = s.heap.getD b []
        rw [getD_append_left _ _ _ _ hb]
      have hviews : ∀ q, registry_view tr (list_set
          ({ heap := s.heap ++ [heap_read s kv0.2], reg := s.reg } : DecompState)
          s.heap.length newContents) q = registry_view tr s q := by
        intro q
        refine registry_view_congr tr _ s q rfl ?_
        intro kv hkv
        exact hread2 kv.2 (reg_wf_lt s hwf kv hkv)
      refine ⟨?_, rfl, ?_, ?_, hviews⟩
      · show (s.heap ++ [heap_read s kv0.2]).getD s.heap.length [] = _
        rw [getD_append_at_length]
        unfold registry_view
        rw [hdd]
      · intro kv hkv
        have hlt := reg_wf_lt s hwf kv hkv
        rw [hread2 kv.2 hlt, hread1 kv.2 hlt]
      · intro q
        rw [has_decomp_eq_view, has_decomp_eq_view, hviews q]
  | none =>
      have hc : heap_read
          ({ heap := s.heap ++ [[]],
             reg := s.reg ++ [(tr opName, s.heap.length)] } : DecompState)
          s.heap.length = [] := by
        show (s.heap ++ [] :: []).getD s.heap.length [] = []
        exact getD_append_at_length s.heap [] [] []
      have hp : list_decomps_state tr s opName =
          (DecompState.mk
            ((s.heap ++ [[]]) ++
              [heap_read (DecompState.mk (s.heap ++ [[]])
                (s.reg ++ [(tr opName, s.heap.length)])) s.heap.length])
            (s.reg ++ [(tr opName, s.heap.length)]),
            (s.heap ++ [[]]).length) := by
        unfold list_decomps_state dd_get
        rw [hdd]
      rw [hc] at hp
      have hlen1 : (s.heap ++ [[]]).length = s.heap.length + 1 := by
        rw [List.length_append]
        rfl
      rw [hlen1] at hp
      rw [hp] at hcall
      injection hcall with h1 h2
      subst h1
      subst h2
      have hread2 : ∀ b : Nat, b < s.heap.length + 1 →
          heap_read (list_set
            ({ heap := (s.heap ++ [[]]) ++ [[]],
               reg := s.reg ++ [(tr opName, s.heap.length)] } : DecompState)
            (s.heap.length + 1) newContents) b =
          (s.heap ++ [[]]).getD b [] := by
        intro b hb
        show (((s.heap ++ [[]]) ++ [[]]).set (s.heap.length + 1) newContents).getD b []
          = (s.heap ++ [[]]).getD b []
        rw [getD_set_ne _ _ _ _ _ (by omega),
          getD_append_left _ _ _ _ (by rw [List.length_append]; simpa using hb)]
      have hread1 : ∀ b : Nat, b < s.heap.length + 1 →
          heap_read (DecompState.mk ((s.heap ++ [[]]) ++ [[]])
            (s.reg ++ [(tr opName, s.heap.length)])) b =
          (s.heap ++ [[]]).getD b [] := by
        intro b hb
        show ((s.heap ++ [[]]) ++ [[]]).getD b [] = (s.heap ++ [[]]).getD b []
        rw [getD_append_left _ _ _ _ (by rw [List.length_append]; simpa using hb)]
      have hvals2 : ∀ kv ∈ s.reg, heap_read (list_set
          ({ heap := (s.heap ++ [[]]) ++ [[]],
             reg := s.reg ++ [(tr opName, s.heap.length)] } : DecompState)
          (s.heap.length + 1) newContents) kv.2 = heap_read s kv.2 := by
        intro kv hkv
        have hlt := reg_wf_lt s hwf kv hkv
        rw [hread2 kv.2 (by omega)]
        exact getD_append_left _ _ _ _ hlt
      have hLempty : heap_read (list_set
          ({ heap := (s.heap ++ [[]]) ++ [[]],
             reg := s.reg ++ [(tr opName, s.heap.length)] } : DecompState)
          (s.heap.length + 1) newContents) s.heap.length = [] := by
        rw [hread2 s.heap.length (by omega)]
        exact getD_append_at_length s.heap [] [] []
      have hviews : ∀ q, registry_view tr (list_set
          ({ heap := (s.heap ++ [[]]) ++ [[]],
             reg := s.reg ++ [(tr opName, s.heap.length)] } : DecompState)
          (s.heap.length + 1) newContents) q = registry_view tr s q := by
        intro q
        exact registry_view_append_empty tr _ s (tr opName) s.heap.length q rfl
          hvals2 hLempty
      refine ⟨?_, rfl, ?_, ?_, hviews⟩
      · have hlen : (s.heap ++ [[]]).length = s.heap.length + 1 := by
          rw [List.length_append]
          rfl
        show ((s.heap ++ [[]]) ++ [[]]).getD (s.heap.length + 1) [] = _
        rw [← hlen, getD_append_at_length]
        unfold registry_view
        rw [hdd]
      · intro kv hkv
        rcases List.mem_append.mp hkv with hold | hnew
        · have hlt := reg_wf_lt s hwf kv hold
          rw [hread2 kv.2 (by omega), hread1 kv.2 (by omega)]
        · have hkv' : kv = (tr opName, s.heap.length) := by simpa using hnew
          subst hkv'
          rw [hread2 _ (by omega), hread1 _ (by omega)]
      · intro q
        rw [has_decomp_eq_view, has_decomp_eq_view, hviews q]

/-- Witness for C10: on a one-entry registry, mutating the copy returned
by `list_decomps` leaves `has_decomp` and the registry contents intact. -/
theorem c10_list_decomps_copy_witness :
    heap_read ⟨[[5], [5]], [("CNOT", 0)]⟩ 1 =
      registry_view id ⟨[[5]], [("CNOT", 0)]⟩ "CNOT" ∧
    (list_set ⟨[[5], [5]], [("CNOT", 0)]⟩ 1 [7, 8]).reg =
      (⟨[[5], [5]], [("CNOT", 0)]⟩ : DecompState).reg ∧
    (∀ kv ∈ (⟨[[5], [5]], [("CNOT", 0)]⟩ : DecompState).reg,
      heap_read (list_set ⟨[[5], [5]], [("CNOT", 0)]⟩ 1 [7, 8]) kv.2 =
        heap_read ⟨[[5], [5]], [("CNOT", 0)]⟩ kv.2) ∧
    (∀ q, has_decomp id (list_set ⟨[[5], [5]], [("CNOT", 0)]⟩ 1 [7, 8]) q =
      has_decomp id ⟨[[5]], [("CNOT", 0)]⟩ q) ∧
    (∀ q, registry_view id (list_set ⟨[[5], [5]], [("CNOT", 0)]⟩ 1 [7, 8]) q =
      registry_view id ⟨[[5]], [("CNOT", 0)]⟩ q) :=
  c10_list_decomps_copy id ⟨[[5]], [("CNOT", 0)]⟩ "CNOT" (by decide)
    ⟨[[5], [5]], [("CNOT", 0)]⟩ 1 (by decide) [7, 8]

/-! Claim C1 -/

theorem getSamples_length (s : SampleDict) (n : Nat) (k : Nat)
    (h₁ : ∀ kv ∈ s, kv.2.length = n) (hk : k ∈ s.map Prod.fst) :
    (getSamples s k).length = n := by
  unfold getSamples
  obtain ⟨kv, hkv, hfst⟩ := List.mem_map.mp hk
  cases hfind : s.find? (fun kv => kv.1 == k) with
  | none =>
      exfalso
      have := List.find?_eq_none.mp hfind kv hkv
      simp [hfst] at this
  | some kvf =>
      exact h₁ kvf (List.mem_of_find?_eq_some hfind)

theorem find?_map_values (g : List Int → List Int) (k : Nat) :
    ∀ s : SampleDict,
      (s.map (fun kv => (kv.1, g kv.2))).find? (fun kv => kv.1 == k) =
        (s.find? (fun kv => kv.1 == k)).map (fun kv => (kv.1, g kv.2)) := by
  intro s
  induction s with
  | nil => rfl
  | cons kv rest ih =>
      by_cases hk : (kv.1 == k) = true
      · rw [List.map_cons,
          @List.find?_cons_of_pos _ (fun kv => kv.1 == k) (kv.1, g kv.2)
            (rest.map (fun kv => (kv.1, g kv.2))) hk,
          @List.find?_cons_of_pos _ (fun kv => kv.1 == k) kv rest hk]
        rfl
      · rw [List.map_cons,
          @List.find?_cons_of_neg _ (fun kv => kv.1 == k) (kv.1, g kv.2)
            (rest.map (fun kv => (kv.1, g kv.2))) hk,
          @List.find?_cons_of_neg _ (fun kv => kv.1 == k) kv rest hk, ih]

theorem getSamples_map_values (g : List Int → List Int) (s : SampleDict) (k : Nat)
    (hk : k ∈ s.map Prod.fst) :
    getSamples (s.map (fun kv => (kv.1, g kv.2))) k = g (getSamples s k) := by
  unfold getSamples
  rw [find?_map_values]
  obtain ⟨kv, hkv, hfst⟩ := List.mem_map.mp hk
  cases hfind : s.find? (fun kv => kv.1 == k) with
  | none =>
      exfalso
      have := List.find?_eq_none.mp hfind kv hkv
      simp [hfst] at this
  | some kvf => rfl

theorem maskKeep_rowform :
    ∀ (arr : List Int) (mask : List Bool), arr.length = mask.length →
      maskKeep arr (mask.map (fun b => !b)) =
        ((List.range arr.length).filter (fun i => !(mask.getD i false))).map
          (fun i => arr.getD i 0) := by
  intro arr
  induction arr with
  | nil =>
      intro mask h
      rfl
  | cons a arr' ih =>
      intro mask h
      cases mask with
      | nil => simp at h
      | cons bb mask' =>
          have h' : arr'.length = mask'.length := by simpa using h
          cases bb
          · show maskKeep (a :: arr') (true :: mask'.map (fun b => !b)) = _
            rw [show maskKeep (a :: arr') (true :: mask'.map (fun b => !b)) =
              a :: maskKeep arr' (mask'.map (fun b => !b)) from rfl]
            rw [ih mask' h']
            rw [List.length_cons, List.range_succ_eq_map]
            rw [List.filter_cons_of_pos rfl]
            rw [List.filter_map, List.map_cons, List.map_map]
            congr 1
          · show maskKeep (a :: arr') (false :: mask'.map (fun b => !b)) = _
            rw [show maskKeep (a :: arr') (false :: mask'.map (fun b => !b)) =
              maskKeep arr' (mask'.map (fun b => !b)) from rfl]
            rw [ih mask' h']
            rw [List.length_cons, List.range_succ_eq_map]
            rw [List.filter_cons_of_neg (by simp)]
            rw [List.filter_map, List.map_map]
            rfl

/-- The ancestor-conjunction fold of `prune_mcm_samples` computes, at each
shot index, the conjunction of the initial mask bit with the per-ancestor
sample equalities. -/
theorem mask_fold_spec (s : SampleDict) (n : Nat)
    (h₁ : ∀ kv ∈ s, kv.2.length = n) :
    ∀ (l : List (Nat × Int)) (m : List Bool), m.length = n →
      (∀ kv ∈ l, kv.1 ∈ s.map Prod.fst) →
      (l.foldl (fun m kv => List.zipWith (fun a b => a && b) m
          ((getSamples s kv.1).map (fun x => x == kv.2))) m).length = n ∧
      ∀ i, i < n →
        (l.foldl (fun m kv => List.zipWith (fun a b => a && b) m
            ((getSamples s kv.1).map (fun x => x == kv.2))) m).getD i false =
          (m.getD i false && l.all (fun kv => (getSamples s kv.1).getD i 0 == kv.2)) := by
  intro l
  induction l with
  | nil =>
      intro m hm _
      refine ⟨hm, ?_⟩
      intro i hi
      simp
  | cons kv l' ih =>
      intro m hm hmem
      have harr : (getSamples s kv.1).length = n :=
        getSamples_length s n kv.1 h₁ (hmem kv (by simp))
      have hm' : (List.zipWith (fun a b => a && b) m
          ((getSamples s kv.1).map (fun x => x == kv.2))).length = n := by
        rw [List.length_zipWith, List.length_map, hm, harr, Nat.min_self]
      obtain ⟨ihlen, ihval⟩ := ih
        (List.zipWith (fun a b => a && b) m
          ((getSamples s kv.1).map (fun x => x == kv.2)))
        hm' (fun x hx => hmem x (by simp [hx]))
      constructor
      · rw [List.foldl_cons]
        exact ihlen
      · intro i hi
        rw [List.foldl_cons, ihval i hi]
        have hz : (List.zipWith (fun a b => a && b) m
            ((getSamples s kv.1).map (fun x => x == kv.2))).getD i false =
            (m.getD i false && ((getSamples s kv.1).getD i 0 == kv.2)) := by
          rw [List.getD_eq_getElem _ _ (by rw [hm']; exact hi)]
          rw [List.getElem_zipWith]
          rw [List.getD_eq_getElem m _ (by rw [hm]; exact hi)]
          congr 1
          rw [List.getElem_map]
          rw [List.getD_eq_getElem _ _ (by rw [harr]; exact hi)]
        rw [hz, List.all_cons, Bool.and_assoc]

/-- The pruning mask of `prune_mcm_samples` is, pointwise, exactly the
claim-side history-match predicate. -/
theorem pruneMask_spec (op : Nat) (br : Int) (active : ActiveDict)
    (s : SampleDict) (n : Nat)
    (h₁ : ∀ kv ∈ s, kv.2.length = n) (h₂ : op ∈ s.map Prod.fst)
    (h₃ : ∀ kv ∈ ancestorsBefore op active, kv.1 ∈ s.map Prod.fst) :
    (pruneMask op br active s).length = n ∧
    ∀ i, i < n →
      (pruneMask op br active s).getD i false = historyMatchB op br active s i := by
  have hop : (getSamples s op).length = n := getSamples_length s n op h₁ h₂
  have hinit : ((getSamples s op).map (fun x => x == br)).length = n := by
    rw [List.length_map, hop]
  obtain ⟨hlen, hval⟩ := mask_fold_spec s n h₁ (ancestorsBefore op active)
    ((getSamples s op).map (fun x => x == br)) hinit h₃
  refine ⟨hlen, ?_⟩
  intro i hi
  unfold pruneMask
  rw [hval i hi]
  unfold historyMatchB
  congr 1
  rw [List.getD_eq_getElem _ _ (by rw [hinit]; exact hi)]
  rw [List.getElem_map]
  rw [List.getD_eq_getElem _ _ (by rw [hop]; exact hi)]

/-- Row form of `prune_mcm_samples`: every entry keeps exactly the shot
indices whose recorded history does NOT match the pruned branch. -/
theorem prune_rowform (op : Nat) (br : Int) (active : ActiveDict)
    (s : SampleDict) (n : Nat)
    (h₁ : ∀ kv ∈ s, kv.2.length = n) (h₂ : op ∈ s.map Prod.fst)
    (h₃ : ∀ kv ∈ ancestorsBefore op active, kv.1 ∈ s.map Prod.fst) :
    prune_mcm_samples op br active s =
      s.map (fun kv => (kv.1,
        ((List.range n).filter (fun i => !(historyMatchB op br active s i))).map
          (fun i => kv.2.getD i 0))) := by
  obtain ⟨hmlen, hmval⟩ := pruneMask_spec op br active s n h₁ h₂ h₃
  unfold prune_mcm_samples
  apply List.map_congr_left
  intro kv hkv
  have hlen : kv.2.length = n := h₁ kv hkv
  congr 1
  rw [maskKeep_rowform kv.2 (pruneMask op br active s) (by rw [hlen, hmlen])]
  rw [hlen]
  congr 1
  apply List.filter_congr
  intro i hi
  rw [hmval i (List.mem_range.mp hi)]

/-- After pruning, no surviving shot index has a recorded history matching
the pruned branch: the rejected branch's samples are absent from the
surviving `mcm_samples`. -/
theorem prune_absence (op : Nat) (br : Int) (active : ActiveDict)
    (s : SampleDict) (n : Nat)
    (h₁ : ∀ kv ∈ s, kv.2.length = n) (h₂ : op ∈ s.map Prod.fst)
    (h₃ : ∀ kv ∈ ancestorsBefore op active, kv.1 ∈ s.map Prod.fst) :
    ∀ j, j < (getSamples (prune_mcm_samples op br active s) op).length →
      historyMatchB op br active (prune_mcm_samples op br active s) j = false := by
  intro j hj
  rw [prune_rowform op br active s n h₁ h₂ h₃] at hj ⊢
  set kept := (List.range n).filter (fun i => !(historyMatchB op br active s i))
    with hkept
  have hgs : ∀ k, k ∈ s.map Prod.fst →
      getSamples (s.map (fun kv => (kv.1,
        kept.map (fun i => kv.2.getD i 0)))) k =
      kept.map (fun i => (getSamples s k).getD i 0) :=
    fun k hk => getSamples_map_values (fun arr => kept.map (fun i => arr.getD i 0)) s k hk
  rw [hgs op h₂] at hj
  rw [List.length_map] at hj
  have hi_mem : kept.getD j 0 ∈ kept := by
    rw [List.getD_eq_getElem _ _ hj]
    exact List.getElem_mem hj
  have hi_range : kept.getD j 0 ∈ List.range n := (List.mem_filter.mp hi_mem).1
  have hi_lt : kept.getD j 0 < n := List.mem_range.mp hi_range
  have hi_nomatch : historyMatchB op br active s (kept.getD j 0) = false := by
    have := (List.mem_filter.mp hi_mem).2
    simpa using this
  have hgetj : ∀ k, k ∈ s.map Prod.fst →
      (getSamples (s.map (fun kv => (kv.1,
        kept.map (fun i => kv.2.getD i 0)))) k).getD j 0 =
      (getSamples s k).getD (kept.getD j 0) 0 := by
    intro k hk
    rw [hgs k hk]
    rw [List.getD_eq_getElem _ _ (by rw [List.length_map]; exact hj)]
    rw [List.getElem_map]
    rw [List.getD_eq_getElem kept _ hj]
  unfold historyMatchB
  rw [hgetj op h₂]
  unfold historyMatchB at hi_nomatch
  rw [← hi_nomatch]
  congr 1
  apply list_all_congr
  intro kv hkv
  rw [hgetj kv.1 (h₃ kv hkv)]

/-- The accepted branches of the branch loop are exactly the keys matching
the postselect value. -/
theorem mcmBranchLoop_accepted (recurse : Int → SampleDict → SampleDict)
    (op : Nat) (b : Int) :
    ∀ (keys : List Int) (active : ActiveDict) (s : SampleDict),
      (mcmBranchLoop recurse op (some b) active keys s).1 =
        keys.filter (fun br => br == b) := by
  intro keys
  induction keys with
  | nil => intro active s; rfl
  | cons br rest ih =>
      intro active s
      have hunfold : mcmBranchLoop recurse op (some b) active (br :: rest) s =
          (if br ≠ b then
            mcmBranchLoop recurse op (some b) active rest
              (prune_mcm_samples op br active s)
          else
            (br :: (mcmBranchLoop recurse op (some b) (dictInsert active op br) rest
              (recurse br s)).1,
             (mcmBranchLoop recurse op (some b) (dictInsert active op br) rest
              (recurse br s)).2)) := rfl
      by_cases hbr : br = b
      · subst hbr
        rw [hunfold, if_neg (by simp), List.filter_cons_of_pos (by simp)]
        exact congrArg (List.cons br) (ih _ _)
      · rw [hunfold, if_pos hbr, List.filter_cons_of_neg (by simpa using hbr)]
        exact ih _ _

/-- Claim C1: in the branch loop of `simulate_tree_mcm` with an explicit
postselect value `b`, only the branches whose outcome equals `b` are
recursed into (the accepted-branch list is exactly the keys equal to `b`);
and for any rejected branch, `prune_mcm_samples` removes from EVERY entry
of `mcm_samples` exactly the shot indices whose recorded history matches
the rejected branch (samples of `op` equal to the rejected outcome and
ancestor samples matching `mcm_active`), so the rejected branch's samples
are absent from the surviving `mcm_samples`. -/
theorem c1_postselect_prune (recurse : Int → SampleDict → SampleDict) (op : Nat)
    (b : Int) (keys : List Int) (active : ActiveDict) (s : SampleDict) (n : Nat)
    (h₁ : ∀ kv ∈ s, kv.2.length = n)
    (h₂ : op ∈ s.map Prod.fst)
    (h₃ : ∀ kv ∈ ancestorsBefore op active, kv.1 ∈ s.map Prod.fst) :
    (mcmBranchLoop recurse op (some b) active keys s).1 =
      keys.filter (fun br => br == b) ∧
    ∀ br, br ≠ b →
      prune_mcm_samples op br active s =
        s.map (fun kv => (kv.1,
          ((List.range n).filter (fun i => !(historyMatchB op br active s i))).map
            (fun i => kv.2.getD i 0))) ∧
      ∀ j, j < (getSamples (prune_mcm_samples op br active s) op).length →
        historyMatchB op br active (prune_mcm_samples op br active s) j = false := by
  refine ⟨mcmBranchLoop_accepted recurse op b keys active s, ?_⟩
  intro br _
  exact ⟨prune_rowform op br active s n h₁ h₂ h₃,
    prune_absence op br active s n h₁ h₂ h₃⟩

/-- Witness for C1 at a concrete instance: with `postselect = 1` and
observed outcomes `[0, 1]`, only branch 1 is recursed into, and pruning
branch 0 removes exactly the first sample (the only one recording
outcome 0). -/
theorem c1_postselect_prune_witness :
    (mcmBranchLoop (fun _ s => s) 0 (some 1) [] [0, 1] [(0, [0, 1, 1])]).1 = [1] ∧
    prune_mcm_samples 0 0 [] [(0, [0, 1, 1])] = [(0, [1, 1])] := by
  have h := c1_postselect_prune (fun _ s => s) 0 1 [0, 1] [] [(0, [0, 1, 1])] 3
    (by decide) (by decide) (by decide)
  constructor
  · rw [h.1]
    decide
  · rw [(h.2 0 (by decide)).1]
    decide
